import Mathlib

/-!
Verification of the kronos `Modeler` orchestration (src/kronos/modeler.py and
src/mlf_project/modeler.py) against its natural-language specification.

Conventions of the shallow embedding:
* dates (`datetime.date`) are days counted as integers (`ℤ`); `timedelta(days=x)`
  is integer addition;
* pandas / numpy float values are embedded as `ℚ` where no square root occurs
  (prediction, train/test split) and as `ℝ` where one does (metrics, competition);
* a DataFrame is a list of rows in table order;
* fallible code is embedded with `Option`/`Except`: a `none`/`.error` result
  models an exception propagating out of the embedded fragment.
-/

namespace Kronos

/-! ### Date-descending sort: `sort_values(by=[date_col], ascending=False)` -/

/-- A row of the input data: (date, metric value). -/
abbrev DataRow := ℤ × ℚ

/-- The descending-by-date comparison used by `sort_values(ascending=False)`. -/
def dateGe (a b : DataRow) : Prop := b.1 ≤ a.1

instance : DecidableRel dateGe := fun a b => inferInstanceAs (Decidable (b.1 ≤ a.1))

instance : IsTotal DataRow dateGe := ⟨fun a b => le_total b.1 a.1⟩

instance : IsTrans DataRow dateGe := ⟨fun _ _ _ h1 h2 => le_trans h2 h1⟩

/-- `data.sort_values(by=[self.date_col], ascending=False)`. -/
def sortDesc (l : List DataRow) : List DataRow := List.insertionSort dateGe l

/-! ### Train/test split

`Modeler.train_test_split`, src/mlf_project/modeler.py lines 19-38 (the raising
variant; src/kronos/modeler.py lines 170-197 wraps the identical guard and
slicing in a try/except that logs the failure). -/

/-- The message of the exception raised on insufficient data. -/
def insufficientDataMsg : String := "Not enough records to perform train/test split"

/-- `Modeler.train_test_split`: guard `data.shape[0] - n_test < n_test` (Python
integer arithmetic, hence over `ℤ`), then test = first `n_test` rows of the
descending sort, train = the remaining rows. -/
def train_test_split (data : List DataRow) (n_test : ℕ) :
    Except String (List DataRow × List DataRow) :=
  if (data.length : ℤ) - (n_test : ℤ) < (n_test : ℤ) then
    Except.error insufficientDataMsg
  else
    Except.ok ((sortDesc data).drop n_test, (sortDesc data).take n_test)

/-! ### Prediction: `Modeler.prediction`, src/kronos/modeler.py lines 492-565 -/

/-- A row of the returned prediction DataFrame: date, forecast value,
reference date, creation date, key code. -/
structure PredRow where
  date : ℤ
  fcst : ℚ
  refDate : ℤ
  creationDate : ℤ
  key : String
deriving DecidableEq

/-- `historic_data[self.date_col].max()`: `none` on an empty frame (pandas
yields NaN there, and the subsequent date arithmetic raises). -/
def maxDate : List DataRow → Option ℤ
  | [] => none
  | r :: rs =>
    match maxDate rs with
    | none => some r.1
    | some m => some (max r.1 m)

/-- `historic_data.sort_values(by=date_col, ascending=False).iloc[0][metric_col]`:
the metric value on the most recent historical day. -/
def lastValueOf (historic : List DataRow) : ℚ := ((sortDesc historic).headD (0, 0)).2

/-- The adjusted horizon `difference + fcst_horizon - 1` (line 533), where
`difference = fcst_first_date - last_observed_day` in days; `toNat` mirrors
`range(1, h + 1)` being empty for non-positive `h`. -/
def adjustedHorizon (fcstFirstDate lastDay : ℤ) (fcstHorizon : ℕ) : ℕ :=
  (fcstFirstDate - lastDay + (fcstHorizon : ℤ) - 1).toNat

/-- The dummy flat-line frame of lines 541-549: dates `last_observed_day + x`
for `x in range(1, h + 1)`, every forecast value equal to `last_value`. -/
def flatRows (lastDay : ℤ) (value : ℚ) (h : ℕ) : List DataRow :=
  (List.range' 1 h).map (fun x => (lastDay + (x : ℤ), value))

/-- The fallback branch of `Modeler.prediction` (the `except` block, lines
520-553).  A `none` result models the exception that the branch itself raises
when no historical row predates `fcst_first_date` (max of an empty series is
NaN and `(fcst_first_date - NaN).days` raises). -/
def fallbackRows (data : List DataRow) (fcstFirstDate : ℤ) (fcstHorizon : ℕ)
    (futureOnly : Bool) : Option (List DataRow) :=
  match maxDate (data.filter (fun r => decide (r.1 < fcstFirstDate))) with
  | none => none
  | some lastDay =>
    some (if futureOnly then
      (flatRows lastDay (lastValueOf (data.filter (fun r => decide (r.1 < fcstFirstDate))))
          (adjustedHorizon fcstFirstDate lastDay fcstHorizon)).filter
        (fun r => decide (fcstFirstDate ≤ r.1))
    else
      flatRows lastDay (lastValueOf (data.filter (fun r => decide (r.1 < fcstFirstDate))))
        (adjustedHorizon fcstFirstDate lastDay fcstHorizon))

/-- Lines 556-563: append reference date, creation date and key code, and clamp
negative forecasts with `x if x >= 0 else 0`. -/
def clampRow (fcstFirstDate currentDate : ℤ) (keyCode : String) (r : DataRow) : PredRow :=
  { date := r.1
    fcst := if 0 ≤ r.2 then r.2 else 0
    refDate := fcstFirstDate
    creationDate := currentDate
    key := keyCode }

/-- The common post-processing applied to both the primary and fallback rows. -/
def postProcess (fcstFirstDate currentDate : ℤ) (keyCode : String)
    (rows : List DataRow) : List PredRow :=
  rows.map (clampRow fcstFirstDate currentDate keyCode)

/-- `Modeler.prediction`.  The primary path (production-model load + predict,
lines 501-518) is abstracted as `primary : Option (List DataRow)`: `some rows`
when the external registry and backend succeed and yield the (date, forecast)
columns, `none` when any of it raises and control enters the `except` block. -/
def prediction (primary : Option (List DataRow)) (data : List DataRow)
    (fcstFirstDate : ℤ) (fcstHorizon : ℕ) (futureOnly : Bool)
    (currentDate : ℤ) (keyCode : String) : Option (List PredRow) :=
  match primary with
  | some rows => some (postProcess fcstFirstDate currentDate keyCode rows)
  | none =>
    match fallbackRows data fcstFirstDate fcstHorizon futureOnly with
    | none => none
    | some rows => some (postProcess fcstFirstDate currentDate keyCode rows)

/-! ### Training loop: `Modeler.training`, src/kronos/modeler.py lines 199-285

One model's pipeline is the fixed sequence of calls inside the inner `try`
(lines 233-278).  Whether and where a given model's pipeline raises is an input
of the embedding (the backends and the tracking service are external): each
configured model comes with `Option PipelineStep`, the first step that raises,
if any. -/

/-- The steps of one model's pipeline, in source order. -/
inductive PipelineStep where
  | startRun
  | preprocess
  | logParams
  | fit
  | logModel
  | predict
  | evaluate
  | record
  | logMetrics
deriving DecidableEq

/-- The pipeline steps in the order the source executes them. -/
def pipelineSteps : List PipelineStep :=
  [PipelineStep.startRun, PipelineStep.preprocess, PipelineStep.logParams,
   PipelineStep.fit, PipelineStep.logModel, PipelineStep.predict,
   PipelineStep.evaluate, PipelineStep.record, PipelineStep.logMetrics]

/-- The observable state threaded through the training loop: whether a tracking
run is open, how many runs were opened and closed, the names recorded in the
performance table, the names logged with an error, and the models processed. -/
structure TrainState where
  activeRun : Bool
  openedRuns : ℕ
  closedRuns : ℕ
  perf : List String
  errors : List String
  processed : List String
deriving DecidableEq

def initTrainState : TrainState :=
  { activeRun := false, openedRuns := 0, closedRuns := 0,
    perf := [], errors := [], processed := [] }

/-- `self.ml_flower.end_run()`: closes the active tracking run if one is open
(a no-op otherwise). -/
def endRun (s : TrainState) : TrainState :=
  { s with activeRun := false,
           closedRuns := s.closedRuns + (if s.activeRun then 1 else 0) }

/-- The state effect of one successfully executed pipeline step:
`start_run` opens a tracking run (line 235), the performance-table insertion
records the model name (line 269); the remaining steps touch only external
collaborators. -/
def applyStep (name : String) (s : TrainState) (st : PipelineStep) : TrainState :=
  match st with
  | PipelineStep.startRun => { s with activeRun := true, openedRuns := s.openedRuns + 1 }
  | PipelineStep.record => { s with perf := s.perf ++ [name] }
  | _ => s

/-- Execute the pipeline steps in order; if the step `failAt` is reached it
raises, the exception is caught by the inner `except` (lines 280-282) which
logs the model name and calls `end_run`; on success `end_run` closes the run
(line 278). -/
def execSteps (name : String) (failAt : Option PipelineStep) :
    TrainState → List PipelineStep → TrainState
  | s, [] => endRun s
  | s, st :: rest =>
    if failAt = some st then endRun { s with errors := s.errors ++ [name] }
    else execSteps name failAt (applyStep name s st) rest

/-- The inner loop body for one configured model. -/
def runModelPipeline (s : TrainState) (m : String × Option PipelineStep) : TrainState :=
  let s1 := execSteps m.1 m.2 s pipelineSteps
  { s1 with processed := s1.processed ++ [m.1] }

/-- The `for model_name, model in models.items()` loop of `Modeler.training`. -/
def training (models : List (String × Option PipelineStep)) : TrainState :=
  models.foldl runModelPipeline initTrainState

/-! ### Deployment: `Modeler.deploy` and `Modeler.unit_test`,
src/kronos/modeler.py lines 376-490 -/

/-- The registry stages relevant to one key: which version (if any) is in
Staging, which is in Production, and the versions moved to Archived. -/
structure RegistryState where
  staging : Option ℕ
  production : Option ℕ
  archived : List ℕ
deriving DecidableEq

def okStatus : String := "OK"

def koStatus : String := "KO"

/-- Modelled from the spec: `MLFlower.promote_model` (kronos/ml_flower.py, not
under src/).  Per §3 DeploymentStage and §6 Model registry of the spec, a
promotion with `archive_existing_versions=True` moves any version occupying the
entered stage to Archived and places the promoted version in that stage (a
version occupies one stage, so promoting the staged version to production
vacates Staging). -/
def promote_model (s : RegistryState) (v : ℕ) (stage : String) : RegistryState :=
  if stage = "staging" then
    { staging := some v
      production := s.production
      archived := s.archived ++ s.staging.toList }
  else if stage = "production" then
    { staging := if s.staging = some v then none else s.staging
      production := some v
      archived := s.archived ++ s.production.toList }
  else s

/-- `Modeler.unit_test` (lines 376-419): predict `n_unit_test` points with the
staged model and compare the count (line 409).  The model load and prediction
are external; `predCount` is `some c` when they succeed and produce `c` rows,
`none` when they raise (the `except` at line 416 then returns Python `None`). -/
def unit_test (predCount : Option ℕ) (nUnitTest : ℕ) : Option String :=
  predCount.map (fun c => if c = nUnitTest then okStatus else koStatus)

/-- `Modeler.deploy` (lines 421-490) from the point the winning version `v` is
registered: promote to Staging archiving the previous staged version, run the
unit test, and only on `"OK"` promote to Production archiving the previous
production version. -/
def deploy (s : RegistryState) (v : ℕ) (predCount : Option ℕ) (nUnitTest : ℕ) :
    RegistryState :=
  let s1 := promote_model s v "staging"
  match unit_test predCount nUnitTest with
  | some st => if st = okStatus then promote_model s1 v "production" else s1
  | none => s1

/-! ### Evaluator: `Modeler.evaluate_model`, src/kronos/modeler.py lines 124-168 -/

/-- `supported_metrics = ["rmse", "mape"]` (line 138). -/
def supportedMetrics : List String := ["rmse", "mape"]

/-- `97 ≤ c ≤ 122` after mapping `65 ≤ c ≤ 90`: ASCII lower-casing, the effect
of Python `str.lower()` on the metric-name strings used here. -/
def lowerChar (c : Char) : Char :=
  if 65 ≤ c.toNat ∧ c.toNat ≤ 90 then Char.ofNat (c.toNat + 32) else c

/-- `metric.lower().replace(" ", "")` (line 146): lower-case, then drop the
space characters (code point 32). -/
def normalizeMetric (s : String) : String :=
  String.mk ((s.data.map lowerChar).filter (fun c => decide (c.toNat ≠ 32)))

/-- `.mean()` of a numpy array embedded as a list. -/
noncomputable def mean (xs : List ℝ) : ℝ := xs.sum / xs.length

/-- numpy broadcasting of two 1-d arrays for an elementwise operation: equal
lengths pair up, a length-1 array is replicated, anything else raises. -/
def bcastPair (a b : List ℝ) : Option (List ℝ × List ℝ) :=
  if a.length = b.length then some (a, b)
  else if a.length = 1 then some (List.replicate b.length (a.getD 0 0), b)
  else if b.length = 1 then some (a, List.replicate a.length (b.getD 0 0))
  else none

/-- `((actual - pred) ** 2).mean() ** 0.5` (line 154); `** 0.5` on the
non-negative mean of squares is the square root. -/
noncomputable def rmseValue (a b : List ℝ) : ℝ :=
  Real.sqrt (mean (List.zipWith (fun u v => (u - v) ^ 2) a b))

/-- `(np.abs((actual - pred) / actual)).mean() * 100` (line 156). -/
noncomputable def mapeValue (a b : List ℝ) : ℝ :=
  mean (List.zipWith (fun u v => |(u - v) / u|) a b) * 100

/-- One supported metric's computation on the raw arrays: broadcast, then the
metric formula.  `none` models the numpy broadcast error propagating.  (The
final 0 arm mirrors the source's dead `np.Inf` branch, unreachable because
`evaluate_model` only computes supported metrics.) -/
noncomputable def computeMetric (m : String) (a b : List ℝ) : Option ℝ :=
  match bcastPair a b with
  | none => none
  | some p =>
    some (if m = "rmse" then rmseValue p.1 p.2
          else if m = "mape" then mapeValue p.1 p.2 else 0)

/-- Python dict insertion on an association list in insertion order:
overwrite the value in place if the key exists, else append. -/
def dictInsert : List (String × ℝ) → String → ℝ → List (String × ℝ)
  | [], k, v => [(k, v)]
  | p :: ps, k, v => if p.1 = k then (k, v) :: ps else p :: dictInsert ps k v

/-- Python dict lookup on the association list. -/
def dictLookup : List (String × ℝ) → String → Option ℝ
  | [], _ => none
  | p :: ps, k => if p.1 = k then some p.2 else dictLookup ps k

/-- The `for metric in metrics` loop (lines 141-163): unsupported names are
skipped after logging; a supported metric is computed and inserted in `out`;
an exception in a computation escapes the loop and the surrounding `try`, which
returns Python `None` (modelled as `none`). -/
noncomputable def evalGo (a b : List ℝ) :
    List String → List (String × ℝ) → Option (List (String × ℝ))
  | [], acc => some acc
  | m :: ms, acc =>
    if normalizeMetric m ∈ supportedMetrics then
      match computeMetric (normalizeMetric m) a b with
      | none => none
      | some v => evalGo a b ms (dictInsert acc (normalizeMetric m) v)
    else evalGo a b ms acc

/-- `Modeler.evaluate_model`: `some dict` on success, `none` when an exception
was caught and the method fell through to return `None` (lines 167-168). -/
noncomputable def evaluate_model (actual pred : List ℝ) (metrics : List String) :
    Option (List (String × ℝ)) :=
  evalGo actual pred metrics []

/-! ### Competition: `Modeler.competition`, src/kronos/modeler.py lines 329-374

The performance table is the list of its rows in table order: model name and
the competition-metric values in the positional order of
`fcst_competition_metrics`. -/

/-- One performance-table row: model name and metric values. -/
abbrev PerfRow := String × List ℝ

/-- Element `i` of a real list, defaulting to 0 (`getD`). -/
def nthR (xs : List ℝ) (i : ℕ) : ℝ := xs.getD i 0

/-- The metric column `m` of the performance table. -/
def tableColumn (rows : List PerfRow) (m : ℕ) : List ℝ :=
  rows.map (fun r => nthR r.2 m)

/-- `self.df_performances[metric].mean()` (pandas column mean). -/
noncomputable def colMean (xs : List ℝ) : ℝ := xs.sum / xs.length

/-- `self.df_performances[metric].std()` (pandas column std, `ddof=1`):
the square root of `sum((x - mean)^2) / (n - 1)`. -/
noncomputable def colStd (xs : List ℝ) : ℝ :=
  Real.sqrt ((xs.map (fun x => (x - colMean xs) ^ 2)).sum / ((xs.length : ℝ) - 1))

/-- Lines 340-347: one iteration of the standardization loop, replacing column
`m` by `x - mean / std` of that column. -/
noncomputable def updateColumn (m : ℕ) (rows : List PerfRow) : List PerfRow :=
  rows.map (fun r =>
    (r.1, r.2.set m (nthR r.2 m - colMean (tableColumn rows m) / colStd (tableColumn rows m))))

/-- The `for metric in self.fcst_competition_metrics` loop: standardize the
metric columns one after the other. -/
noncomputable def standardizeTable (k : ℕ) (rows : List PerfRow) : List PerfRow :=
  (List.range k).foldl (fun acc m => updateColumn m acc) rows

/-- Lines 350-366: `error_avg` of one row, the elementwise product of its
metric values with the weights, summed, divided by the sum of the weights. -/
noncomputable def weightedScore (weights vals : List ℝ) : ℝ :=
  (List.zipWith (fun a b => a * b) vals weights).sum / weights.sum

/-- The `error_avg` column of the standardized table. -/
noncomputable def compositeScores (k : ℕ) (weights : List ℝ) (rows : List PerfRow) : List ℝ :=
  (standardizeTable k rows).map (fun r => weightedScore weights r.2)

/-- The minimum of a list of reals (0 for the empty list, never consulted). -/
noncomputable def listMin : List ℝ → ℝ
  | [] => 0
  | [x] => x
  | x :: y :: ys => min x (listMin (y :: ys))

/-- `argmin`: the first index attaining the minimum (numpy / pandas `argmin`
semantics, line 370). -/
noncomputable def argminIdx : List ℝ → ℕ
  | [] => 0
  | [_] => 0
  | x :: y :: ys => if x ≤ listMin (y :: ys) then 0 else argminIdx (y :: ys) + 1

/-- `Modeler.competition` outcome: the name of the row at the argmin of
`error_avg` over the standardized table; on an empty table the `argmin` raises,
the exception is caught (line 373) and `winning_model_name` stays `None`. -/
noncomputable def competitionWinner (k : ℕ) (weights : List ℝ) (rows : List PerfRow) :
    Option String :=
  match rows with
  | [] => none
  | _ :: _ =>
    some (((standardizeTable k rows).map Prod.fst).getD
      (argminIdx (compositeScores k weights rows)) (""))

/-! ## Helper lemmas -/

lemma maxDate_eq_none_iff (l : List DataRow) : maxDate l = none ↔ l = [] := by
  cases l with
  | nil => simp [maxDate]
  | cons r rs =>
    simp only [maxDate]
    cases h : maxDate rs <;> simp

lemma maxDate_mem (l : List DataRow) (m : ℤ) (h : maxDate l = some m) :
    ∃ r ∈ l, r.1 = m := by
  induction l generalizing m with
  | nil => simp [maxDate] at h
  | cons a as ih =>
    simp only [maxDate] at h
    cases hm : maxDate as with
    | none =>
      rw [hm] at h
      exact ⟨a, List.mem_cons_self a as, by simpa using h⟩
    | some m2 =>
      rw [hm] at h
      have hmax : max a.1 m2 = m := by simpa using h
      rcases max_choice a.1 m2 with hc | hc
      · exact ⟨a, List.mem_cons_self a as, by rw [← hmax, hc]⟩
      · obtain ⟨r, hr, hrm⟩ := ih m2 hm
        exact ⟨r, List.mem_cons_of_mem a hr, by rw [hrm, ← hmax, hc]⟩

lemma maxDate_ub (l : List DataRow) (m : ℤ) (h : maxDate l = some m) :
    ∀ r ∈ l, r.1 ≤ m := by
  induction l generalizing m with
  | nil => simp
  | cons a as ih =>
    simp only [maxDate] at h
    cases hm : maxDate as with
    | none =>
      rw [hm] at h
      have has : as = [] := (maxDate_eq_none_iff as).mp hm
      subst has
      intro r hr
      rcases List.mem_singleton.mp hr with rfl
      simpa using le_of_eq (by simpa using h : r.1 = m)
    | some m2 =>
      rw [hm] at h
      have hmax : max a.1 m2 = m := by simpa using h
      intro r hr
      rcases List.mem_cons.mp hr with rfl | hr2
      · exact hmax ▸ le_max_left _ _
      · exact le_trans (ih m2 hm r hr2) (hmax ▸ le_max_right _ _)

lemma maxDate_eq_of_ub (l : List DataRow) (D : ℤ) (hmem : ∃ r ∈ l, r.1 = D)
    (hub : ∀ r ∈ l, r.1 ≤ D) : maxDate l = some D := by
  obtain ⟨r0, hr0, hr0D⟩ := hmem
  cases h : maxDate l with
  | none =>
    rw [maxDate_eq_none_iff] at h
    subst h
    exact absurd hr0 (List.not_mem_nil r0)
  | some m =>
    have h1 : m ≤ D := by
      obtain ⟨r, hr, hrm⟩ := maxDate_mem l m h
      exact hrm ▸ hub r hr
    have h2 : D ≤ m := hr0D ▸ maxDate_ub l m h r0 hr0
    rw [le_antisymm h1 h2]

lemma sortDesc_perm (l : List DataRow) : List.Perm (sortDesc l) l :=
  List.perm_insertionSort dateGe l

lemma sortDesc_sorted (l : List DataRow) : List.Sorted dateGe (sortDesc l) :=
  List.sorted_insertionSort dateGe l

lemma sortDesc_headD_ub (l : List DataRow) : ∀ r ∈ l, r.1 ≤ ((sortDesc l).headD (0, 0)).1 := by
  intro r hr
  have hperm := sortDesc_perm l
  have hsort := sortDesc_sorted l
  cases hs : sortDesc l with
  | nil =>
    rw [hs] at hperm
    rw [hperm.symm.eq_nil] at hr
    exact absurd hr (List.not_mem_nil r)
  | cons x xs =>
    rw [hs] at hperm hsort
    have hr2 : r ∈ x :: xs := hperm.symm.subset hr
    rcases List.mem_cons.mp hr2 with rfl | hr3
    · simp
    · simpa using (List.sorted_cons.mp hsort).1 r hr3

lemma sortDesc_headD_mem (l : List DataRow) (h : l ≠ []) :
    (sortDesc l).headD (0, 0) ∈ l := by
  have hperm := sortDesc_perm l
  cases hs : sortDesc l with
  | nil =>
    rw [hs] at hperm
    exact absurd hperm.symm.eq_nil h
  | cons x xs =>
    rw [hs] at hperm
    exact hperm.subset (by simp)

lemma lastValueOf_eq (l : List DataRow) (D : ℤ) (V : ℚ) (hmem : (D, V) ∈ l)
    (hub : ∀ r ∈ l, r.1 ≤ D) (hval : ∀ r ∈ l, r.1 = D → r.2 = V) :
    lastValueOf l = V := by
  have hne : l ≠ [] := List.ne_nil_of_mem hmem
  have hhead := sortDesc_headD_mem l hne
  have h1 : ((sortDesc l).headD (0, 0)).1 ≤ D := hub _ hhead
  have h2 : D ≤ ((sortDesc l).headD (0, 0)).1 := sortDesc_headD_ub l (D, V) hmem
  exact hval _ hhead (le_antisymm h1 h2)

/-! ## Claim theorems -/

/-- Claim C5: for every dataset with `rows ≥ 2*n_test` the split sorts by date
descending, takes the first `n_test` rows as test and the rest as train; train
and test are complementary segments of the sorted data, their concatenation is
a permutation of the original dataset, and their sizes are `rows - n_test` and
`n_test`; for `rows - n_test < n_test` the split fails with the
insufficient-data error. -/
theorem c5_train_test_split_spec (data : List DataRow) (n_test : ℕ) :
    (2 * n_test ≤ data.length →
      train_test_split data n_test =
        Except.ok ((sortDesc data).drop n_test, (sortDesc data).take n_test) ∧
      sortDesc data = (sortDesc data).take n_test ++ (sortDesc data).drop n_test ∧
      List.Perm ((sortDesc data).take n_test ++ (sortDesc data).drop n_test) data ∧
      ((sortDesc data).drop n_test).length = data.length - n_test ∧
      ((sortDesc data).take n_test).length = n_test ∧
      List.Sorted dateGe (sortDesc data)) ∧
    (data.length < 2 * n_test →
      train_test_split data n_test = Except.error insufficientDataMsg) := by
  have hlen : (sortDesc data).length = data.length := (sortDesc_perm data).length_eq
  constructor
  · intro h
    have hguard : ¬ ((data.length : ℤ) - (n_test : ℤ) < (n_test : ℤ)) := by omega
    refine ⟨by simp [train_test_split, hguard], (List.take_append_drop _ _).symm, ?_, ?_, ?_,
      sortDesc_sorted data⟩
    · rw [List.take_append_drop]
      exact sortDesc_perm data
    · rw [List.length_drop, hlen]
    · rw [List.length_take, hlen]
      omega
  · intro h
    have hguard : (data.length : ℤ) - (n_test : ℤ) < (n_test : ℤ) := by omega
    simp [train_test_split, hguard]

/-- Witness for C5 at concrete inputs: one dataset large enough for the split,
one too small. -/
theorem c5_train_test_split_spec_witness :
    (train_test_split [((2 : ℤ), (20 : ℚ)), (1, 10)] 1 = Except.ok ([(1, 10)], [(2, 20)])) ∧
    train_test_split [((3 : ℤ), (1 : ℚ))] 1 = Except.error insufficientDataMsg := by
  have h1 := (c5_train_test_split_spec [((2 : ℤ), (20 : ℚ)), (1, 10)] 1).1 (by decide)
  have h2 := (c5_train_test_split_spec [((3 : ℤ), (1 : ℚ))] 1).2 (by decide)
  exact ⟨by rw [h1.1]; simp only [Except.ok.injEq]; decide, h2⟩

/-- Claim C9: every row of a DataFrame returned by `Modeler.prediction`, on the
primary or the fallback path, carries a non-negative forecast value. -/
theorem c9_forecasts_nonneg (primary : Option (List DataRow)) (data : List DataRow)
    (fcstFirstDate : ℤ) (fcstHorizon : ℕ) (futureOnly : Bool) (currentDate : ℤ)
    (keyCode : String) (out : List PredRow)
    (h : prediction primary data fcstFirstDate fcstHorizon futureOnly currentDate keyCode
      = some out) :
    ∀ r ∈ out, 0 ≤ r.fcst := by
  have key : ∀ rows : List DataRow,
      ∀ r ∈ postProcess fcstFirstDate currentDate keyCode rows, 0 ≤ r.fcst := by
    intro rows r hr
    simp only [postProcess, List.mem_map] at hr
    obtain ⟨a, _, rfl⟩ := hr
    simp only [clampRow]
    split
    · assumption
    · exact le_refl 0
  cases primary with
  | some rows =>
    simp only [prediction, Option.some.injEq] at h
    exact h ▸ key rows
  | none =>
    cases hfb : fallbackRows data fcstFirstDate fcstHorizon futureOnly with
    | none => simp [prediction, hfb] at h
    | some rows =>
      simp only [prediction, hfb, Option.some.injEq] at h
      exact h ▸ key rows

/-- Witness for C9 at a concrete input: a primary forecast with a negative
value comes back clamped to zero. -/
theorem c9_forecasts_nonneg_witness :
    0 ≤ ({ date := 5, fcst := 0, refDate := 0, creationDate := 0, key := "k" } : PredRow).fcst :=
  c9_forecasts_nonneg (some [((5 : ℤ), (-3 : ℚ))]) [] 0 1 false 0 ("k")
    [({ date := 5, fcst := 0, refDate := 0, creationDate := 0, key := "k" } : PredRow)]
    (by decide)
    ({ date := 5, fcst := 0, refDate := 0, creationDate := 0, key := "k" } : PredRow)
    (by decide)

/-- Counterexample to C3 as stated: with no historical row strictly before
`fcst_first_date` the fallback itself raises (the max of the empty historical
frame is NaN and the subsequent date subtraction raises inside the `except`
block), so the method does not return a DataFrame. -/
theorem c3_counterexample :
    (prediction (none) [((10 : ℤ), (5 : ℚ))] 5 3 true 0 ("k")).isSome = false := by
  decide

/-- Claim C3 (amended): whenever the primary path succeeds, or at least one
data row predates `fcst_first_date`, `Modeler.prediction` returns a DataFrame;
primary-path failure degrades to the naive fallback. -/
theorem c3_prediction_total (primary : Option (List DataRow)) (data : List DataRow)
    (fcstFirstDate : ℤ) (fcstHorizon : ℕ) (futureOnly : Bool) (currentDate : ℤ)
    (keyCode : String)
    (h : primary ≠ none ∨ ∃ r ∈ data, r.1 < fcstFirstDate) :
    (prediction primary data fcstFirstDate fcstHorizon futureOnly currentDate
      keyCode).isSome = true := by
  cases primary with
  | some rows => simp [prediction]
  | none =>
    rcases h with h | ⟨r, hr, hlt⟩
    · exact absurd rfl h
    · have hne : data.filter (fun r => decide (r.1 < fcstFirstDate)) ≠ [] := by
        intro hemp
        have hmem : r ∈ data.filter (fun r => decide (r.1 < fcstFirstDate)) := by
          simp [List.mem_filter, hr, hlt]
        rw [hemp] at hmem
        exact absurd hmem (List.not_mem_nil r)
      cases hmd : maxDate (data.filter (fun r => decide (r.1 < fcstFirstDate))) with
      | none => exact absurd ((maxDate_eq_none_iff _).mp hmd) hne
      | some d => simp [prediction, fallbackRows, hmd]

/-- Witness for C3 (amended) at a concrete input: the fallback serves a result
when a historical row predates the forecast start. -/
theorem c3_prediction_total_witness :
    (prediction (none) [((4 : ℤ), (5 : ℚ))] 5 3 true 0 ("k")).isSome = true :=
  c3_prediction_total (none) [((4 : ℤ), (5 : ℚ))] 5 3 true 0 ("k")
    (Or.inr ⟨(4, 5), by decide, by decide⟩)

/-- Counterexample to C4 as stated: with last value `V = -1` the returned rows
carry forecast value `0`, not `V` — the final clamping step (line 563) zeroes
negative values, which the claim's "each with forecast value V" overlooks. -/
theorem c4_counterexample :
    prediction (none) [((0 : ℤ), (-1 : ℚ))] 3 5 true 0 ("k") =
      some ((List.range' 3 5).map (fun x =>
        { date := (x : ℤ), fcst := 0, refDate := 3, creationDate := 0, key := "k" })) ∧
    ∀ r ∈ (List.range' 3 5).map (fun x =>
        ({ date := (x : ℤ), fcst := 0, refDate := 3, creationDate := 0, key := "k" } : PredRow)),
      r.fcst ≠ (-1 : ℚ) := by
  decide

/-- Claim C4 (amended): with historical data ending at day `D` with last metric
value `V`, `fcst_first_date = D+3`, `fcst_horizon = 5` and `future_only = true`,
the fallback returns exactly the rows for dates `D+3` through `D+7`, each with
forecast value `max V 0` (`V` clamped to be non-negative; equal to `V` whenever
`V ≥ 0`): the adjusted horizon is `difference + fcst_horizon - 1` days counted
from `D+1`, and rows before `fcst_first_date` are dropped. -/
theorem c4_fallback_window (data : List DataRow) (D : ℤ) (V : ℚ) (currentDate : ℤ)
    (keyCode : String) (hmem : (D, V) ∈ data) (hub : ∀ r ∈ data, r.1 ≤ D)
    (hval : ∀ r ∈ data, r.1 = D → r.2 = V) :
    prediction (none) data (D + 3) 5 true currentDate keyCode =
      some ((List.range' 3 5).map (fun x =>
        { date := D + (x : ℤ), fcst := if 0 ≤ V then V else 0,
          refDate := D + 3, creationDate := currentDate, key := keyCode })) := by
  have hfilter : data.filter (fun r => decide (r.1 < D + 3)) = data := by
    apply List.filter_eq_self.mpr
    intro r hr
    have := hub r hr
    simp only [decide_eq_true_eq]
    omega
  have hmax : maxDate data = some D :=
    maxDate_eq_of_ub data D ⟨(D, V), hmem, rfl⟩ hub
  have hlast : lastValueOf data = V := lastValueOf_eq data D V hmem hub hval
  have hadj : adjustedHorizon (D + 3) D 5 = 7 := by
    unfold adjustedHorizon
    omega
  simp only [prediction, fallbackRows, hfilter, hmax, hlast, hadj, if_true]
  congr 1
  rw [show flatRows D V 7 = (List.range' 1 7).map (fun x : ℕ => ((D + (x : ℤ), V) : DataRow))
    from rfl]
  rw [List.filter_map]
  have hc : ∀ x : ℕ,
      ((fun r : DataRow => decide (D + 3 ≤ r.1)) ∘ (fun x : ℕ => ((D + (x : ℤ), V) : DataRow))) x
        = decide (3 ≤ x) := by
    intro x
    simp only [Function.comp]
    rw [decide_eq_decide]
    omega
  rw [funext hc]
  rw [show (List.range' 1 7).filter (fun x => decide (3 ≤ x)) = List.range' 3 5 from by decide]
  simp [postProcess, clampRow, List.map_map, Function.comp]

/-- Witness for C4 at a concrete input: data ends at day 10 with last value 2. -/
theorem c4_fallback_window_witness :
    prediction (none) [((8 : ℤ), (1 : ℚ)), (10, 2)] (10 + 3) 5 true 7 ("key") =
      some ((List.range' 3 5).map (fun x =>
        { date := 10 + (x : ℤ), fcst := if 0 ≤ (2 : ℚ) then 2 else 0,
          refDate := 10 + 3, creationDate := 7, key := "key" })) :=
  c4_fallback_window [((8 : ℤ), (1 : ℚ)), (10, 2)] 10 2 7 ("key")
    (by decide) (by decide) (by decide)

lemma runModel_processed (s : TrainState) (m : String × Option PipelineStep) :
    (runModelPipeline s m).processed = s.processed ++ [m.1] := by
  rcases m with ⟨name, failAt⟩
  rcases failAt with _ | st
  · simp [runModelPipeline, pipelineSteps, execSteps, applyStep, endRun]
  · cases st <;> simp [runModelPipeline, pipelineSteps, execSteps, applyStep, endRun]

lemma runModel_activeRun (s : TrainState) (m : String × Option PipelineStep) :
    (runModelPipeline s m).activeRun = false := by
  rcases m with ⟨name, failAt⟩
  rcases failAt with _ | st
  · simp [runModelPipeline, pipelineSteps, execSteps, applyStep, endRun]
  · cases st <;> simp [runModelPipeline, pipelineSteps, execSteps, applyStep, endRun]

lemma runModel_errors (s : TrainState) (m : String × Option PipelineStep) :
    (runModelPipeline s m).errors =
      s.errors ++ (if m.2 = none then [] else [m.1]) := by
  rcases m with ⟨name, failAt⟩
  rcases failAt with _ | st
  · simp [runModelPipeline, pipelineSteps, execSteps, applyStep, endRun]
  · cases st <;> simp [runModelPipeline, pipelineSteps, execSteps, applyStep, endRun]

lemma runModel_perf (s : TrainState) (m : String × Option PipelineStep) :
    (runModelPipeline s m).perf =
      s.perf ++ (if m.2 = none ∨ m.2 = some PipelineStep.logMetrics then [m.1] else []) := by
  rcases m with ⟨name, failAt⟩
  rcases failAt with _ | st
  · simp [runModelPipeline, pipelineSteps, execSteps, applyStep, endRun]
  · cases st <;> simp [runModelPipeline, pipelineSteps, execSteps, applyStep, endRun]

lemma runModel_opened (s : TrainState) (m : String × Option PipelineStep) :
    (runModelPipeline s m).openedRuns =
      s.openedRuns + (if m.2 = some PipelineStep.startRun then 0 else 1) := by
  rcases m with ⟨name, failAt⟩
  rcases failAt with _ | st
  · simp [runModelPipeline, pipelineSteps, execSteps, applyStep, endRun]
  · cases st <;> simp [runModelPipeline, pipelineSteps, execSteps, applyStep, endRun]

lemma runModel_closed (s : TrainState) (m : String × Option PipelineStep)
    (h : s.activeRun = false) :
    (runModelPipeline s m).closedRuns =
      s.closedRuns + (if m.2 = some PipelineStep.startRun then 0 else 1) := by
  rcases m with ⟨name, failAt⟩
  rcases failAt with _ | st
  · simp [runModelPipeline, pipelineSteps, execSteps, applyStep, endRun, h]
  · cases st <;> simp [runModelPipeline, pipelineSteps, execSteps, applyStep, endRun, h]

lemma training_foldl (models : List (String × Option PipelineStep)) :
    ∀ s : TrainState, s.activeRun = false →
      (models.foldl runModelPipeline s).processed = s.processed ++ models.map Prod.fst ∧
      (models.foldl runModelPipeline s).activeRun = false ∧
      (models.foldl runModelPipeline s).errors =
        s.errors ++ (models.filter (fun m => m.2 ≠ none)).map Prod.fst ∧
      (models.foldl runModelPipeline s).perf =
        s.perf ++ (models.filter
          (fun m => m.2 = none ∨ m.2 = some PipelineStep.logMetrics)).map Prod.fst ∧
      (models.foldl runModelPipeline s).openedRuns =
        s.openedRuns + (models.filter (fun m => m.2 ≠ some PipelineStep.startRun)).length ∧
      (models.foldl runModelPipeline s).closedRuns =
        s.closedRuns + (models.filter (fun m => m.2 ≠ some PipelineStep.startRun)).length := by
  induction models with
  | nil => intro s hs; simp [hs]
  | cons m ms ih =>
    intro s hs
    have hact := runModel_activeRun s m
    obtain ⟨ih1, ih2, ih3, ih4, ih5, ih6⟩ := ih (runModelPipeline s m) hact
    simp only [List.foldl_cons]
    refine ⟨?_, ih2, ?_, ?_, ?_, ?_⟩
    · rw [ih1, runModel_processed]
      simp
    · rw [ih3, runModel_errors]
      by_cases h : m.2 = none <;> simp [h, List.filter_cons]
    · rw [ih4, runModel_perf]
      by_cases h : m.2 = none ∨ m.2 = some PipelineStep.logMetrics <;>
        simp [h, List.filter_cons]
    · rw [ih5, runModel_opened]
      by_cases h : m.2 = some PipelineStep.startRun
      · simp [h, List.filter_cons]
      · simp [h, List.filter_cons]
        omega
    · rw [ih6, runModel_closed s m hs]
      by_cases h : m.2 = some PipelineStep.startRun
      · simp [h, List.filter_cons]
      · simp [h, List.filter_cons]
        omega

/-- Claim C6: the training loop processes every configured model in order; a
model whose pipeline raises at any step is logged with its name, the tracking
run is closed (no run is left active, and every model past `start_run` has its
run closed), the performance table keeps exactly the models whose pipeline
reached the record step, and the loop always reaches the models after a
failure — a single model's failure never aborts the batch. -/
theorem c6_training_isolation (models : List (String × Option PipelineStep)) :
    (training models).processed = models.map Prod.fst ∧
    (training models).activeRun = false ∧
    (training models).errors = (models.filter (fun m => m.2 ≠ none)).map Prod.fst ∧
    (training models).perf = (models.filter
      (fun m => m.2 = none ∨ m.2 = some PipelineStep.logMetrics)).map Prod.fst ∧
    (training models).closedRuns =
      (models.filter (fun m => m.2 ≠ some PipelineStep.startRun)).length ∧
    (training models).openedRuns = (training models).closedRuns := by
  obtain ⟨h1, h2, h3, h4, h5, h6⟩ := training_foldl models initTrainState rfl
  exact ⟨by simpa [initTrainState] using h1, h2, by simpa [initTrainState] using h3,
    by simpa [initTrainState] using h4, by simpa [initTrainState] using h6,
    by simp only [training] at h5 h6 ⊢; rw [h5, h6]; rfl⟩

/-- Claim C2: in `Modeler.deploy` the winning version lands in Production (and
leaves Staging) exactly when the unit test returns `"OK"`, which happens
exactly when the staged model's forecast row count equals `n_unit_test`; on OK
the previous Production version is archived, on KO (or a unit-test failure) the
version remains in Staging and Production is untouched. -/
theorem c2_deploy_gate (s : RegistryState) (v : ℕ) (predCount : Option ℕ) (n : ℕ) :
    ((deploy s v predCount n).production = some v ∧ (deploy s v predCount n).staging = none ↔
      unit_test predCount n = some okStatus) ∧
    (unit_test predCount n = some okStatus ↔ predCount = some n) ∧
    (predCount = some n →
      (deploy s v predCount n).production = some v ∧
      (deploy s v predCount n).staging = none ∧
      (deploy s v predCount n).archived =
        s.archived ++ s.staging.toList ++ s.production.toList) ∧
    (predCount ≠ some n →
      (deploy s v predCount n).staging = some v ∧
      (deploy s v predCount n).production = s.production ∧
      (deploy s v predCount n).archived = s.archived ++ s.staging.toList) := by
  rcases predCount with _ | c
  · simp [deploy, unit_test, promote_model]
  · by_cases hc : c = n
    · subst hc
      simp [deploy, unit_test, promote_model, okStatus, koStatus]
    · simp [deploy, unit_test, promote_model, okStatus, koStatus, hc]

/-- Witness for C2 at concrete inputs: an OK deployment (count matches) and a
KO deployment (count differs) from registry state (staging 3, production 2,
archived [1]), deploying version 7 with `n_unit_test = 5`. -/
theorem c2_deploy_gate_witness :
    ((deploy ⟨some 3, some 2, [1]⟩ 7 (some 5) 5).production = some 7 ∧
      (deploy ⟨some 3, some 2, [1]⟩ 7 (some 5) 5).staging = none ∧
      (deploy ⟨some 3, some 2, [1]⟩ 7 (some 5) 5).archived =
        [1] ++ [3] ++ [2]) ∧
    ((deploy ⟨some 3, some 2, [1]⟩ 7 (some 4) 5).staging = some 7 ∧
      (deploy ⟨some 3, some 2, [1]⟩ 7 (some 4) 5).production = some 2 ∧
      (deploy ⟨some 3, some 2, [1]⟩ 7 (some 4) 5).archived = [1] ++ [3]) :=
  ⟨(c2_deploy_gate ⟨some 3, some 2, [1]⟩ 7 (some 5) 5).2.2.1 rfl,
   (c2_deploy_gate ⟨some 3, some 2, [1]⟩ 7 (some 4) 5).2.2.2 (by decide)⟩

lemma bcastPair_of_eq (a b : List ℝ) (h : a.length = b.length) :
    bcastPair a b = some (a, b) := by
  simp [bcastPair, h]

lemma computeMetric_of_eq (a b : List ℝ) (h : a.length = b.length) (m : String) :
    computeMetric m a b =
      some (if m = "rmse" then rmseValue a b
            else if m = "mape" then mapeValue a b else 0) := by
  simp [computeMetric, bcastPair_of_eq a b h]

lemma dictLookup_mem (l : List (String × ℝ)) (k : String) (v : ℝ)
    (h : dictLookup l k = some v) : (k, v) ∈ l := by
  induction l with
  | nil => simp [dictLookup] at h
  | cons p ps ih =>
    by_cases hp : p.1 = k
    · simp only [dictLookup, if_pos hp] at h
      have hpkv : p = (k, v) := by
        cases p
        simp_all
      rw [← hpkv]
      exact List.mem_cons_self _ _
    · simp only [dictLookup, if_neg hp] at h
      exact List.mem_cons_of_mem p (ih h)

lemma mem_dictInsert (l : List (String × ℝ)) (k : String) (v : ℝ) (p : String × ℝ)
    (h : p ∈ dictInsert l k v) : p = (k, v) ∨ p ∈ l := by
  induction l with
  | nil => simpa [dictInsert] using h
  | cons q qs ih =>
    by_cases hq : q.1 = k
    · simp only [dictInsert, if_pos hq] at h
      rcases List.mem_cons.mp h with rfl | hp
      · exact Or.inl rfl
      · exact Or.inr (List.mem_cons_of_mem q hp)
    · simp only [dictInsert, if_neg hq] at h
      rcases List.mem_cons.mp h with rfl | hp
      · exact Or.inr (List.mem_cons_self p qs)
      · rcases ih hp with h1 | h1
        · exact Or.inl h1
        · exact Or.inr (List.mem_cons_of_mem q h1)

lemma dictLookup_dictInsert_self (l : List (String × ℝ)) (k : String) (v : ℝ) :
    dictLookup (dictInsert l k v) k = some v := by
  induction l with
  | nil => simp [dictInsert, dictLookup]
  | cons p ps ih =>
    by_cases hp : p.1 = k
    · simp [dictInsert, dictLookup, hp]
    · simp [dictInsert, dictLookup, hp, ih]

lemma dictLookup_dictInsert_ne (l : List (String × ℝ)) (k : String) (v : ℝ)
    (k' : String) (h : k' ≠ k) :
    dictLookup (dictInsert l k v) k' = dictLookup l k' := by
  induction l with
  | nil => simp [dictInsert, dictLookup, Ne.symm h]
  | cons p ps ih =>
    by_cases hp : p.1 = k
    · simp [dictInsert, dictLookup, hp, Ne.symm h]
    · by_cases hp' : p.1 = k'
      · simp [dictInsert, dictLookup, hp, hp', h]
      · simp [dictInsert, dictLookup, hp, hp', ih]

lemma dictLookup_dictInsert_ne_none (l : List (String × ℝ)) (k : String) (v : ℝ)
    (k' : String) (h : dictLookup l k' ≠ none) :
    dictLookup (dictInsert l k v) k' ≠ none := by
  by_cases hk : k' = k
  · subst hk
    rw [dictLookup_dictInsert_self]
    exact Option.some_ne_none v
  · rw [dictLookup_dictInsert_ne l k v k' hk]
    exact h

lemma evalGo_spec (a b : List ℝ) (h : a.length = b.length) :
    ∀ (ms : List String) (acc : List (String × ℝ)),
      (∀ p ∈ acc, (p.1 = "rmse" ∧ p.2 = rmseValue a b) ∨
        (p.1 = "mape" ∧ p.2 = mapeValue a b)) →
      ∃ out, evalGo a b ms acc = some out ∧
        (∀ p ∈ out, (p.1 = "rmse" ∧ p.2 = rmseValue a b) ∨
          (p.1 = "mape" ∧ p.2 = mapeValue a b)) ∧
        (∀ k, dictLookup acc k ≠ none → dictLookup out k ≠ none) ∧
        (∀ m ∈ ms, normalizeMetric m ∈ supportedMetrics →
          dictLookup out (normalizeMetric m) ≠ none) := by
  intro ms
  induction ms with
  | nil =>
    intro acc hacc
    exact ⟨acc, rfl, hacc, fun k hk => hk, by simp⟩
  | cons m ms ih =>
    intro acc hacc
    by_cases hm : normalizeMetric m ∈ supportedMetrics
    · have hval : (if normalizeMetric m = "rmse" then rmseValue a b
          else if normalizeMetric m = "mape" then mapeValue a b else 0) = rmseValue a b ∨
          (if normalizeMetric m = "rmse" then rmseValue a b
          else if normalizeMetric m = "mape" then mapeValue a b else 0) = mapeValue a b := by
        rcases by simpa [supportedMetrics] using hm with h1 | h1 <;> simp [h1]
      have haccnew : ∀ p ∈ dictInsert acc (normalizeMetric m)
          (if normalizeMetric m = "rmse" then rmseValue a b
           else if normalizeMetric m = "mape" then mapeValue a b else 0),
          (p.1 = "rmse" ∧ p.2 = rmseValue a b) ∨ (p.1 = "mape" ∧ p.2 = mapeValue a b) := by
        intro p hp
        rcases mem_dictInsert _ _ _ _ hp with rfl | hp2
        · rcases by simpa [supportedMetrics] using hm with h1 | h1
          · exact Or.inl ⟨h1, by simp [h1]⟩
          · exact Or.inr ⟨h1, by simp [h1]⟩
        · exact hacc p hp2
      obtain ⟨out, h1, h2, h3, h4⟩ := ih _ haccnew
      refine ⟨out, ?_, h2, ?_, ?_⟩
      · rw [evalGo, if_pos hm, computeMetric_of_eq a b h]
        exact h1
      · intro k hk
        exact h3 k (dictLookup_dictInsert_ne_none _ _ _ _ hk)
      · intro m' hm' hsup
        rcases List.mem_cons.mp hm' with rfl | hm''
        · refine h3 (normalizeMetric m') ?_
          rw [dictLookup_dictInsert_self]
          exact Option.some_ne_none _
        · exact h4 m' hm'' hsup
    · obtain ⟨out, h1, h2, h3, h4⟩ := ih acc hacc
      refine ⟨out, ?_, h2, h3, ?_⟩
      · rw [evalGo, if_neg hm]
        exact h1
      · intro m' hm' hsup
        rcases List.mem_cons.mp hm' with rfl | hm''
        · exact absurd hsup hm
        · exact h4 m' hm'' hsup

/-- Claim C8: on equal-length arrays `evaluate_model` returns a mapping in
which `rmse` (when requested) maps to `sqrt(mean((actual-pred)^2))` and `mape`
(when requested) to `mean(|(actual-pred)/actual|)*100`; every key of the
returned mapping is a supported metric, so unsupported requested names are
omitted without raising; concretely,
`rmse([1,2,3],[1,2,4]) = sqrt(1/3)` and `mape([10,20],[12,18]) = 15`. -/
theorem c8_evaluate_model_spec (metrics : List String) (actual pred : List ℝ)
    (h : actual.length = pred.length) :
    (∃ out, evaluate_model actual pred metrics = some out ∧
      (∀ p ∈ out, p.1 ∈ supportedMetrics) ∧
      (("rmse") ∈ metrics.map normalizeMetric →
        dictLookup out ("rmse") = some (rmseValue actual pred)) ∧
      (("mape") ∈ metrics.map normalizeMetric →
        dictLookup out ("mape") = some (mapeValue actual pred))) ∧
    evaluate_model [1, 2, 3] [1, 2, 4] [("rmse")] =
      some [(("rmse"), Real.sqrt (1 / 3))] ∧
    evaluate_model [10, 20] [12, 18] [("mape")] = some [(("mape"), 15)] := by
  refine ⟨?_, ?_, ?_⟩
  · obtain ⟨out, h1, h2, h3, h4⟩ := evalGo_spec actual pred h metrics [] (by simp)
    refine ⟨out, h1, ?_, ?_, ?_⟩
    · intro p hp
      rcases h2 p hp with ⟨hk, _⟩ | ⟨hk, _⟩ <;> simp [supportedMetrics, hk]
    · intro hreq
      obtain ⟨m, hmmem, hmn⟩ := List.mem_map.mp hreq
      have hne := h4 m hmmem (by rw [hmn]; simp [supportedMetrics])
      rw [hmn] at hne
      obtain ⟨v, hv⟩ := Option.ne_none_iff_exists.mp hne
      rcases h2 _ (dictLookup_mem out ("rmse") v hv.symm) with ⟨_, hval⟩ | ⟨hk, _⟩
      · rw [hv.symm]
        exact congrArg some hval
      · simp at hk
    · intro hreq
      obtain ⟨m, hmmem, hmn⟩ := List.mem_map.mp hreq
      have hne := h4 m hmmem (by rw [hmn]; simp [supportedMetrics])
      rw [hmn] at hne
      obtain ⟨v, hv⟩ := Option.ne_none_iff_exists.mp hne
      rcases h2 _ (dictLookup_mem out ("mape") v hv.symm) with ⟨hk, _⟩ | ⟨_, hval⟩
      · simp at hk
      · rw [hv.symm]
        exact congrArg some hval
  · have hnorm : normalizeMetric ("rmse") = ("rmse") := by decide
    have hlen : (([1, 2, 3] : List ℝ)).length = (([1, 2, 4] : List ℝ)).length := by decide
    have hval : rmseValue [1, 2, 3] [1, 2, 4] = Real.sqrt (1 / 3) := by
      rw [rmseValue]
      norm_num [mean, List.zipWith]
    rw [evaluate_model, evalGo, hnorm, if_pos (by simp [supportedMetrics]),
      computeMetric_of_eq _ _ hlen]
    simp [evalGo, dictInsert, hval]
  · have hnorm : normalizeMetric ("mape") = ("mape") := by decide
    have hlen : (([10, 20] : List ℝ)).length = (([12, 18] : List ℝ)).length := by decide
    have hval : mapeValue [10, 20] [12, 18] = 15 := by
      rw [mapeValue]
      have h1 : ((10 : ℝ) - 12) / 10 = -(1 / 5) := by norm_num
      have h2 : ((20 : ℝ) - 18) / 20 = 1 / 10 := by norm_num
      norm_num [mean, List.zipWith, h1, h2, abs_of_nonneg, abs_neg]
    rw [evaluate_model, evalGo, hnorm, if_pos (by simp [supportedMetrics]),
      computeMetric_of_eq _ _ hlen]
    simp [evalGo, dictInsert, hval]

/-- Witness for C8 at a concrete input with equal-length arrays. -/
theorem c8_evaluate_model_spec_witness :
    (∃ out, evaluate_model [(0 : ℝ), 2] [0, 1] [("rmse")] = some out ∧
      (∀ p ∈ out, p.1 ∈ supportedMetrics) ∧
      (("rmse") ∈ ([("rmse")] : List String).map normalizeMetric →
        dictLookup out ("rmse") = some (rmseValue [(0 : ℝ), 2] [0, 1])) ∧
      (("mape") ∈ ([("rmse")] : List String).map normalizeMetric →
        dictLookup out ("mape") = some (mapeValue [(0 : ℝ), 2] [0, 1]))) ∧
    evaluate_model [1, 2, 3] [1, 2, 4] [("rmse")] =
      some [(("rmse"), Real.sqrt (1 / 3))] ∧
    evaluate_model [10, 20] [12, 18] [("mape")] = some [(("mape"), 15)] :=
  c8_evaluate_model_spec [("rmse")] [(0 : ℝ), 2] [0, 1] (by decide)

lemma evalGo_none (a b : List ℝ) (hb : bcastPair a b = none) :
    ∀ (ms : List String) (acc : List (String × ℝ)),
      (∃ m ∈ ms, normalizeMetric m ∈ supportedMetrics) →
      evalGo a b ms acc = none := by
  intro ms
  induction ms with
  | nil => intro acc hm; simp at hm
  | cons m ms ih =>
    intro acc hm
    by_cases hmm : normalizeMetric m ∈ supportedMetrics
    · rw [evalGo, if_pos hmm, computeMetric, hb]
    · rw [evalGo, if_neg hmm]
      obtain ⟨m', hm', hsup⟩ := hm
      rcases List.mem_cons.mp hm' with rfl | hm''
      · exact absurd hsup hmm
      · exact ih acc ⟨m', hm'', hsup⟩

/-- Claim C10 (implicit): `evaluate_model` never raises — when the actual and
predicted arrays cannot be combined arithmetically (numpy broadcast failure)
and at least one supported metric is requested, the exception raised inside the
loop is caught and the method returns `None` instead of the metric dictionary. -/
theorem c10_evaluate_model_none (actual pred : List ℝ) (metrics : List String)
    (hb : bcastPair actual pred = none)
    (hm : ∃ m ∈ metrics, normalizeMetric m ∈ supportedMetrics) :
    evaluate_model actual pred metrics = none :=
  evalGo_none actual pred hb metrics [] hm

/-- Witness for C10 at a concrete input: arrays of lengths 2 and 3 cannot be
broadcast, so requesting `rmse` yields `None`. -/
theorem c10_evaluate_model_none_witness :
    evaluate_model [(1 : ℝ), 2] [1, 2, 3] [("rmse")] = none :=
  c10_evaluate_model_none [(1 : ℝ), 2] [1, 2, 3] [("rmse")]
    (by simp [bcastPair]) ⟨("rmse"), by simp, by decide⟩

lemma nthR_set_ne (l : List ℝ) (i j : ℕ) (v : ℝ) (h : i ≠ j) :
    nthR (l.set i v) j = nthR l j := by
  simp [nthR, List.getD_eq_getElem?_getD, List.getElem?_set_ne h]

lemma nthR_set_self (l : List ℝ) (i : ℕ) (v : ℝ) (h : i < l.length) :
    nthR (l.set i v) i = v := by
  simp [nthR, List.getD_eq_getElem?_getD, List.getElem?_set_self, h]

lemma length_updateColumn (m : ℕ) (rows : List PerfRow) :
    (updateColumn m rows).length = rows.length := by
  simp [updateColumn]

lemma fst_updateColumn (m : ℕ) (rows : List PerfRow) :
    (updateColumn m rows).map Prod.fst = rows.map Prod.fst := by
  simp [updateColumn, List.map_map]

lemma rowlen_updateColumn (k m : ℕ) (rows : List PerfRow)
    (h : ∀ r ∈ rows, r.2.length = k) :
    ∀ r ∈ updateColumn m rows, r.2.length = k := by
  intro r hr
  simp only [updateColumn, List.mem_map] at hr
  obtain ⟨a, ha, rfl⟩ := hr
  simp [List.length_set, h a ha]

lemma tableColumn_updateColumn_ne (m m' : ℕ) (hne : m' ≠ m) (rows : List PerfRow) :
    tableColumn (updateColumn m' rows) m = tableColumn rows m := by
  simp only [tableColumn, updateColumn, List.map_map]
  apply List.map_congr_left
  intro a _
  exact nthR_set_ne a.2 m' m _ hne

lemma tableColumn_updateColumn_self (m : ℕ) (rows : List PerfRow)
    (h : ∀ r ∈ rows, m < r.2.length) :
    tableColumn (updateColumn m rows) m =
      (tableColumn rows m).map (fun x =>
        x - colMean (tableColumn rows m) / colStd (tableColumn rows m)) := by
  simp only [tableColumn, updateColumn, List.map_map]
  apply List.map_congr_left
  intro a ha
  exact nthR_set_self a.2 m _ (h a ha)

lemma foldl_updateColumn_length (L : List ℕ) :
    ∀ rows : List PerfRow,
      (L.foldl (fun acc m => updateColumn m acc) rows).length = rows.length := by
  induction L with
  | nil => intro rows; rfl
  | cons a L ih =>
    intro rows
    rw [List.foldl_cons, ih (updateColumn a rows), length_updateColumn]

lemma foldl_updateColumn_fst (L : List ℕ) :
    ∀ rows : List PerfRow,
      (L.foldl (fun acc m => updateColumn m acc) rows).map Prod.fst =
        rows.map Prod.fst := by
  induction L with
  | nil => intro rows; rfl
  | cons a L ih =>
    intro rows
    rw [List.foldl_cons, ih (updateColumn a rows), fst_updateColumn]

lemma foldl_updateColumn_rowlen (k : ℕ) (L : List ℕ) :
    ∀ rows : List PerfRow, (∀ r ∈ rows, r.2.length = k) →
      ∀ r ∈ L.foldl (fun acc m => updateColumn m acc) rows, r.2.length = k := by
  induction L with
  | nil => intro rows h; exact h
  | cons a L ih =>
    intro rows h
    rw [List.foldl_cons]
    exact ih (updateColumn a rows) (rowlen_updateColumn k a rows h)

lemma foldl_updateColumn_col_notMem (L : List ℕ) (m : ℕ) (hm : m ∉ L) :
    ∀ rows : List PerfRow,
      tableColumn (L.foldl (fun acc m' => updateColumn m' acc) rows) m =
        tableColumn rows m := by
  induction L with
  | nil => intro rows; rfl
  | cons a L ih =>
    intro rows
    simp only [List.mem_cons, not_or] at hm
    rw [List.foldl_cons, ih hm.2 (updateColumn a rows),
      tableColumn_updateColumn_ne m a (Ne.symm hm.1) rows]

/-- Claim C1: in the competition step, each metric column of the performance
table is replaced pointwise by `x - mean/std` (the column's mean divided by its
standard deviation, subtracted from `x`) — not the conventional `(x-mean)/std`:
on the column `[1, 3, 5]` (mean 3, std 2) the two transforms differ. -/
theorem c1_standardization (k : ℕ) (rows : List PerfRow) (m : ℕ)
    (hlen : ∀ r ∈ rows, r.2.length = k) (hm : m < k) :
    tableColumn (standardizeTable k rows) m =
      (tableColumn rows m).map (fun x =>
        x - colMean (tableColumn rows m) / colStd (tableColumn rows m)) ∧
    colMean [1, 3, 5] = 3 ∧ colStd [1, 3, 5] = 2 ∧
    ((1 : ℝ) - colMean [1, 3, 5] / colStd [1, 3, 5] ≠
      ((1 : ℝ) - colMean [1, 3, 5]) / colStd [1, 3, 5]) := by
  have hmean : colMean [1, 3, 5] = (3 : ℝ) := by
    norm_num [colMean]
  have hstd : colStd [1, 3, 5] = (2 : ℝ) := by
    rw [colStd, hmean]
    rw [show (([1, 3, 5] : List ℝ).map (fun x => (x - 3) ^ 2)).sum /
        ((([1, 3, 5] : List ℝ).length : ℝ) - 1) = (4 : ℝ) from by norm_num]
    rw [show (4 : ℝ) = 2 ^ 2 from by norm_num]
    exact Real.sqrt_sq (by norm_num)
  refine ⟨?_, hmean, hstd, by rw [hmean, hstd]; norm_num⟩
  have hsplit : List.range k =
      List.range' 0 m ++ (m :: List.range' (m + 1) (k - m - 1)) := by
    have h1 : (m :: List.range' (m + 1) (k - m - 1)) = List.range' m (k - m - 1 + 1) :=
      (List.range'_succ m (k - m - 1) 1).symm
    rw [List.range_eq_range', h1]
    have h2 := List.range'_append 0 m (k - m - 1 + 1) 1
    simp only [zero_add, one_mul] at h2
    rw [h2]
    congr 1
    omega
  rw [standardizeTable, hsplit, List.foldl_append, List.foldl_cons]
  have hnotmem1 : m ∉ List.range' 0 m := by
    intro h
    rw [List.mem_range'] at h
    omega
  have hnotmem2 : m ∉ List.range' (m + 1) (k - m - 1) := by
    intro h
    rw [List.mem_range'] at h
    omega
  have hcol1 : tableColumn ((List.range' 0 m).foldl (fun acc m' => updateColumn m' acc) rows) m
      = tableColumn rows m := foldl_updateColumn_col_notMem (List.range' 0 m) m hnotmem1 rows
  have hrow1 : ∀ r ∈ (List.range' 0 m).foldl (fun acc m' => updateColumn m' acc) rows,
      m < r.2.length := by
    intro r hr
    rw [foldl_updateColumn_rowlen k (List.range' 0 m) rows hlen r hr]
    exact hm
  rw [foldl_updateColumn_col_notMem (List.range' (m + 1) (k - m - 1)) m hnotmem2]
  rw [tableColumn_updateColumn_self m _ hrow1]
  rw [hcol1]

/-- Witness for C1 at a concrete two-metric table. -/
theorem c1_standardization_witness :
    tableColumn (standardizeTable 2 [(("a"), [1, 3]), (("b"), [2, 1])]) 0 =
      (tableColumn [(("a"), [1, 3]), (("b"), [2, 1])] 0).map (fun x =>
        x - colMean (tableColumn [(("a"), [1, 3]), (("b"), [2, 1])] 0) /
          colStd (tableColumn [(("a"), [1, 3]), (("b"), [2, 1])] 0)) ∧
    colMean [1, 3, 5] = 3 ∧ colStd [1, 3, 5] = 2 ∧
    ((1 : ℝ) - colMean [1, 3, 5] / colStd [1, 3, 5] ≠
      ((1 : ℝ) - colMean [1, 3, 5]) / colStd [1, 3, 5]) :=
  c1_standardization 2 [(("a"), [1, 3]), (("b"), [2, 1])] 0
    (by intro r hr; fin_cases hr <;> rfl) (by omega)

lemma listMin_cons (x : ℝ) (xs : List ℝ) (h : xs ≠ []) :
    listMin (x :: xs) = min x (listMin xs) := by
  cases xs with
  | nil => exact absurd rfl h
  | cons y ys => rfl

lemma argminIdx_cons (x : ℝ) (xs : List ℝ) (h : xs ≠ []) :
    argminIdx (x :: xs) = if x ≤ listMin xs then 0 else argminIdx xs + 1 := by
  cases xs with
  | nil => exact absurd rfl h
  | cons y ys => rfl

lemma argminIdx_lt_length (l : List ℝ) (h : l ≠ []) : argminIdx l < l.length := by
  induction l with
  | nil => exact absurd rfl h
  | cons x xs ih =>
    by_cases hxs : xs = []
    · subst hxs
      simp [argminIdx]
    · rw [argminIdx_cons x xs hxs]
      by_cases hle : x ≤ listMin xs
      · simp [hle]
      · rw [if_neg hle, List.length_cons]
        exact Nat.succ_lt_succ (ih hxs)

lemma nthR_argminIdx (l : List ℝ) (h : l ≠ []) : nthR l (argminIdx l) = listMin l := by
  induction l with
  | nil => exact absurd rfl h
  | cons x xs ih =>
    by_cases hxs : xs = []
    · subst hxs
      simp [argminIdx, listMin, nthR]
    · rw [argminIdx_cons x xs hxs, listMin_cons x xs hxs]
      by_cases hle : x ≤ listMin xs
      · rw [if_pos hle]
        rw [show nthR (x :: xs) 0 = x from rfl]
        exact (min_eq_left hle).symm
      · rw [if_neg hle]
        rw [show nthR (x :: xs) (argminIdx xs + 1) = nthR xs (argminIdx xs) from rfl]
        rw [ih hxs]
        exact (min_eq_right (le_of_lt (lt_of_not_le hle))).symm

lemma listMin_le_nthR (l : List ℝ) : ∀ j, j < l.length → listMin l ≤ nthR l j := by
  induction l with
  | nil => intro j hj; simp at hj
  | cons x xs ih =>
    intro j hj
    by_cases hxs : xs = []
    · subst hxs
      have hj0 : j = 0 := by simpa using hj
      subst hj0
      simp [listMin, nthR]
    · rw [listMin_cons x xs hxs]
      cases j with
      | zero =>
        rw [show nthR (x :: xs) 0 = x from rfl]
        exact min_le_left _ _
      | succ i =>
        rw [show nthR (x :: xs) (i + 1) = nthR xs i from rfl]
        exact le_trans (min_le_right _ _) (ih i (by simpa using hj))

lemma listMin_lt_of_lt_argminIdx (l : List ℝ) :
    ∀ j, j < argminIdx l → listMin l < nthR l j := by
  induction l with
  | nil => intro j hj; simp [argminIdx] at hj
  | cons x xs ih =>
    intro j hj
    by_cases hxs : xs = []
    · subst hxs
      simp [argminIdx] at hj
    · rw [argminIdx_cons x xs hxs] at hj
      by_cases hle : x ≤ listMin xs
      · rw [if_pos hle] at hj
        simp at hj
      · rw [if_neg hle] at hj
        rw [listMin_cons x xs hxs, min_eq_right (le_of_lt (lt_of_not_le hle))]
        cases j with
        | zero =>
          rw [show nthR (x :: xs) 0 = x from rfl]
          exact lt_of_not_le hle
        | succ i =>
          rw [show nthR (x :: xs) (i + 1) = nthR xs i from rfl]
          exact ih i (by omega)

lemma length_standardizeTable (k : ℕ) (rows : List PerfRow) :
    (standardizeTable k rows).length = rows.length := by
  rw [standardizeTable]
  exact foldl_updateColumn_length (List.range k) rows

lemma fst_standardizeTable (k : ℕ) (rows : List PerfRow) :
    (standardizeTable k rows).map Prod.fst = rows.map Prod.fst := by
  rw [standardizeTable]
  exact foldl_updateColumn_fst (List.range k) rows

lemma nthR_map_weightedScore (weights : List ℝ) (l : List PerfRow) (j : ℕ)
    (hj : j < l.length) :
    nthR (l.map (fun r => weightedScore weights r.2)) j =
      weightedScore weights ((l.getD j ((""), [])).2) := by
  rw [nthR, List.getD_eq_getElem _ _ (by simpa using hj), List.getElem_map,
    List.getD_eq_getElem _ _ hj]

/-- Claim C7: each row's composite score is the weighted sum of its
standardized metric values divided by the sum of the weights (weights paired
positionally), and the competition winner is the first row in table order
attaining the minimum composite score (stable argmin). -/
theorem c7_composite_argmin (k : ℕ) (weights : List ℝ) (rows : List PerfRow)
    (hne : rows ≠ []) :
    ∃ i, i < rows.length ∧
      competitionWinner k weights rows = some ((rows.map Prod.fst).getD i ("")) ∧
      (∀ j, j < rows.length → nthR (compositeScores k weights rows) i ≤
        nthR (compositeScores k weights rows) j) ∧
      (∀ j, j < i → nthR (compositeScores k weights rows) i <
        nthR (compositeScores k weights rows) j) ∧
      (∀ j, j < rows.length → nthR (compositeScores k weights rows) j =
        (List.zipWith (fun a b => a * b)
          (((standardizeTable k rows).getD j ((""), [])).2) weights).sum /
          weights.sum) := by
  have hslen : (compositeScores k weights rows).length = rows.length := by
    rw [compositeScores, List.length_map, length_standardizeTable]
  have hsne : compositeScores k weights rows ≠ [] := by
    intro h
    rw [h] at hslen
    exact hne (List.length_eq_zero.mp hslen.symm)
  refine ⟨argminIdx (compositeScores k weights rows), ?_, ?_, ?_, ?_, ?_⟩
  · rw [← hslen]
    exact argminIdx_lt_length _ hsne
  · obtain ⟨x, xs, rfl⟩ := List.exists_cons_of_ne_nil hne
    simp only [competitionWinner]
    rw [fst_standardizeTable]
  · intro j hj
    rw [nthR_argminIdx _ hsne]
    exact listMin_le_nthR _ j (by rw [hslen]; exact hj)
  · intro j hj
    rw [nthR_argminIdx _ hsne]
    exact listMin_lt_of_lt_argminIdx _ j hj
  · intro j hj
    rw [compositeScores, nthR_map_weightedScore weights _ j
      (by rw [length_standardizeTable]; exact hj)]
    rfl

/-- Witness for C7 at a concrete two-row, two-metric table with equal weights. -/
theorem c7_composite_argmin_witness :
    ∃ i, i < ([(("a"), [1, 3]), (("b"), [2, 1])] : List PerfRow).length ∧
      competitionWinner 2 [1, 1] [(("a"), [1, 3]), (("b"), [2, 1])] =
        some ((([(("a"), [1, 3]), (("b"), [2, 1])] : List PerfRow).map Prod.fst).getD i ("")) ∧
      (∀ j, j < ([(("a"), [1, 3]), (("b"), [2, 1])] : List PerfRow).length →
        nthR (compositeScores 2 [1, 1] [(("a"), [1, 3]), (("b"), [2, 1])]) i ≤
          nthR (compositeScores 2 [1, 1] [(("a"), [1, 3]), (("b"), [2, 1])]) j) ∧
      (∀ j, j < i →
        nthR (compositeScores 2 [1, 1] [(("a"), [1, 3]), (("b"), [2, 1])]) i <
          nthR (compositeScores 2 [1, 1] [(("a"), [1, 3]), (("b"), [2, 1])]) j) ∧
      (∀ j, j < ([(("a"), [1, 3]), (("b"), [2, 1])] : List PerfRow).length →
        nthR (compositeScores 2 [1, 1] [(("a"), [1, 3]), (("b"), [2, 1])]) j =
          (List.zipWith (fun a b => a * b)
            (((standardizeTable 2 [(("a"), [1, 3]), (("b"), [2, 1])]).getD j ((""), [])).2)
            [1, 1]).sum / ([1, 1] : List ℝ).sum) :=
  c7_composite_argmin 2 [1, 1] [(("a"), [1, 3]), (("b"), [2, 1])]
    (List.cons_ne_nil _ _)

end Kronos
